import Mathlib

/-!
Shallow embedding of `cons-list` (`src/lib.rs`), a persistent singly-linked
list with reference-counted structural sharing, together with proofs of the
claims of the specification about it.

Modelling conventions:
* `Node<T> { elem: T, next: Option<Rc<Node<T>>> }` becomes the nested
  inductive `Node α` below; `Rc` sharing is invisible to the pure value
  semantics, so a chain is just the tree of `next` links.
* `ConsList<T> { front: Option<Rc<Node<T>>>, length: usize }` becomes a
  structure pairing an optional node with a `Nat` length field.  The Rust
  code caches `length` separately from the chain, so the embedding keeps
  both and states the well-formedness invariant (`WF`) relating them.
* Rust code that can panic (the `unwrap` calls in `tailn`) returns `Option`
  here, with `none` standing for the panic.
* Element-level trait methods (`PartialEq::eq`/`ne`, `PartialOrd::partial_cmp`)
  are passed in as explicit function parameters, mirroring the trait bounds.
* The `Drop` implementation manipulates `Rc` strong counts; for it the heap
  is abstracted to the list of strong counts along the chain of the handle.
-/

set_option autoImplicit false

namespace ConsListModel

variable {α : Type}

/-- Embedding of `struct Node<T> { elem: T, next: Option<Rc<Node<T>>> }`. -/
inductive Node (α : Type) : Type where
  | mk (elem : α) (next : Option (Node α))

/-- Projection for the `elem` field of `Node`. -/
def Node.elem : Node α → α
  | .mk e _ => e

/-- Projection for the `next` field of `Node`. -/
def Node.next : Node α → Option (Node α)
  | .mk _ n => n

/-- The front-to-back sequence of elements stored in the chain starting at a
node. -/
def Node.chain : Node α → List α
  | .mk e none => [e]
  | .mk e (some n) => e :: n.chain
termination_by structural n => n

/-- The front-to-back sequence of elements stored in a chain of nodes. -/
def chainToList : Option (Node α) → List α
  | none => []
  | some n => n.chain

/-- The number of nodes reachable by following `next` links. -/
def chainLength (c : Option (Node α)) : Nat :=
  (chainToList c).length

/-- Embedding of `pub struct ConsList<T> { front: Option<Rc<Node<T>>>, length: usize }`. -/
structure ConsList (α : Type) : Type where
  front : Option (Node α)
  length : Nat

/-- The front-to-back element sequence of a list handle. -/
def ConsList.toList (l : ConsList α) : List α :=
  chainToList l.front

/-- Data-model invariant: the cached `length` equals the number of nodes
reachable from `front`. -/
def ConsList.WF (l : ConsList α) : Prop :=
  l.length = chainLength l.front

/-- Embedding of `ConsList::new`. -/
def ConsList.new : ConsList α :=
  { front := none, length := 0 }

/-- Embedding of `ConsList::len` (reads the cached field). -/
def ConsList.len (l : ConsList α) : Nat :=
  l.length

/-- Embedding of `ConsList::is_empty`. -/
def ConsList.isEmpty (l : ConsList α) : Bool :=
  l.len == 0

/-- Embedding of `ConsList::append`: a new node wrapping `elem` whose
successor is the current front. -/
def ConsList.append (l : ConsList α) (elem : α) : ConsList α :=
  { front := some (Node.mk elem l.front), length := l.len + 1 }

/-- Embedding of `ConsList::head`. -/
def ConsList.head (l : ConsList α) : Option α :=
  l.front.map Node.elem

/-- The loop in `tailn`: `for _ in 0..n { head = head.unwrap().next.as_ref() }`.
Returns `none` when an `unwrap` inside the loop would panic. -/
def walkN : Option (Node α) → Nat → Option (Option (Node α))
  | h, 0 => some h
  | none, _ + 1 => none
  | some nd, n + 1 => walkN nd.next n

/-- Embedding of `ConsList::tailn`; `none` models a panic of the Rust code
(the final `head.unwrap()` or one inside the loop). -/
def ConsList.tailn (l : ConsList α) (n : Nat) : Option (ConsList α) :=
  if l.len ≤ n then
    some ConsList.new
  else
    match walkN l.front n with
    | none => none
    | some none => none
    | some (some nd) => some { front := some nd, length := l.len - n }

/-- Embedding of `ConsList::tail`, which is `tailn(1)`. -/
def ConsList.tail (l : ConsList α) : Option (ConsList α) :=
  l.tailn 1

/-- Embedding of `Clone::clone` for `ConsList`: shares the front, copies the
length scalar. -/
def ConsList.clone (l : ConsList α) : ConsList α :=
  { front := l.front, length := l.length }

/-- Embedding of `ConsList::lastn`. -/
def ConsList.lastn (l : ConsList α) (n : Nat) : Option (ConsList α) :=
  if n ≥ l.length then
    some l.clone
  else
    l.tailn (l.length - n)

/-- Embedding of `ConsList::last`, which takes the last element yielded by
the iterator. -/
def ConsList.lastElem (l : ConsList α) : Option α :=
  l.toList.getLast?

/-- Embedding of the Rust iterator struct: an optional borrowed node plus a remaining count. -/
structure Iter (α : Type) : Type where
  head : Option (Node α)
  nelem : Nat

/-- Embedding of `ConsList::iter`. -/
def ConsList.iter (l : ConsList α) : Iter α :=
  { head := l.front, nelem := l.len }

/-- Embedding of `Iterator::next` for `Iter`: yields the current element and
the advanced cursor.  `self.nelem -= 1` is modelled by truncated `Nat`
subtraction; on every well-formed cursor `nelem` is positive whenever `head`
is present, so no underflow is reachable there. -/
def Iter.nextStep (it : Iter α) : Option α × Iter α :=
  match it.head with
  | none => (none, { head := none, nelem := it.nelem })
  | some hd => (some hd.elem, { head := hd.next, nelem := it.nelem - 1 })

/-- Embedding of `Iterator::size_hint` for `Iter`. -/
def Iter.sizeHint (it : Iter α) : Nat × Option Nat :=
  (it.nelem, some it.nelem)

/-- Applies `next` to the cursor `k` times, discarding the yielded values. -/
def Iter.stepK (it : Iter α) : Nat → Iter α
  | 0 => it
  | k + 1 => (it.nextStep.2).stepK k

/-- Embedding of `FromIterator::from_iter`: starts from the empty list and
appends every element of the source sequence in its iteration order. -/
def fromIter (xs : List α) : ConsList α :=
  xs.foldl (fun l x => l.append x) ConsList.new

/-- Embedding of `PartialEq::eq` for `ConsList`, parametrised by the `eq` method of the element type: `self.len() == other.len() && self.iter().zip(other.iter()).all(|(x, y)| x == y)`. -/
def eqBy (eqf : α → α → Bool) (a b : ConsList α) : Bool :=
  a.len == b.len && (a.toList.zip b.toList).all (fun p => eqf p.1 p.2)

/-- Embedding of `PartialEq::ne` for `ConsList`, parametrised by the `ne` method of the element type: `self.len() != other.len() || self.iter().zip(other.iter()).all(|(x, y)| x != y)`. -/
def neBy (nef : α → α → Bool) (a b : ConsList α) : Bool :=
  a.len != b.len || (a.toList.zip b.toList).all (fun p => nef p.1 p.2)

/-- The loop of `PartialOrd::partial_cmp` for `ConsList`, acting on the
element sequences that the two iterators yield: pairwise element comparison,
continuing on `Some(Equal)` and returning any other result (including
`None`, the incomparable case) immediately. -/
def partialCmpAux (cmpf : α → α → Option Ordering) : List α → List α → Option Ordering
  | [], [] => some Ordering.eq
  | [], _ :: _ => some Ordering.lt
  | _ :: _, [] => some Ordering.gt
  | x :: xs, y :: ys =>
    match cmpf x y with
    | some Ordering.eq => partialCmpAux cmpf xs ys
    | o => o

/-- Embedding of `PartialOrd::partial_cmp` for `ConsList`, parametrised by
the `partial_cmp` method of the element type. -/
def partialCmpBy (cmpf : α → α → Option Ordering) (a b : ConsList α) : Option Ordering :=
  partialCmpAux cmpf a.toList b.toList

/-- The provided Rust `PartialOrd::lt`: `partial_cmp` is `Some(Less)`. -/
def ltBy (cmpf : α → α → Option Ordering) (a b : ConsList α) : Bool :=
  partialCmpBy cmpf a b == some Ordering.lt

/-- The provided Rust `PartialOrd::gt`: `partial_cmp` is `Some(Greater)`. -/
def gtBy (cmpf : α → α → Option Ordering) (a b : ConsList α) : Bool :=
  partialCmpBy cmpf a b == some Ordering.gt

/-- The provided Rust `PartialOrd::le`: `partial_cmp` is `Some(Less)` or `Some(Equal)`. -/
def leBy (cmpf : α → α → Option Ordering) (a b : ConsList α) : Bool :=
  partialCmpBy cmpf a b == some Ordering.lt || partialCmpBy cmpf a b == some Ordering.eq

/-- The provided Rust `PartialOrd::ge`: `partial_cmp` is `Some(Greater)` or `Some(Equal)`. -/
def geBy (cmpf : α → α → Option Ordering) (a b : ConsList α) : Bool :=
  partialCmpBy cmpf a b == some Ordering.gt || partialCmpBy cmpf a b == some Ordering.eq

/-- Modelled from the spec (section 4.3 Ordering), as the reference point for
the refinement claim about `partial_cmp`: lexicographic comparison front to
back over a total element order; the first differing pair decides, an
exhausted shorter list orders before the longer, equal lengths with all
elements equal give `eq`. -/
def specLexCompare {β : Type} [LinearOrder β] : List β → List β → Ordering
  | [], [] => Ordering.eq
  | [], _ :: _ => Ordering.lt
  | _ :: _, [] => Ordering.gt
  | x :: xs, y :: ys =>
    match compare x y with
    | Ordering.eq => specLexCompare xs ys
    | o => o

/-- Embedding of `Drop for ConsList` over an abstracted heap: the chain is
represented by the list of `Rc` strong counts of its successive nodes.  The
walk frees each node whose count is exactly one (`Rc::try_unwrap` succeeds)
and continues with its successor; at the first node whose count exceeds one
it drops that reference (decrementing the count) and returns.  The result is
the number of nodes freed and the strong counts of the surviving suffix. -/
def dropWalk : List Nat → Nat × List Nat
  | [] => (0, [])
  | c :: rest =>
    if c = 1 then
      let r := dropWalk rest
      (r.1 + 1, r.2)
    else
      (0, (c - 1) :: rest)

/-! ### Basic lemmas about chains and the invariant -/

@[simp]
lemma chainToList_none : chainToList (none : Option (Node α)) = [] := rfl

@[simp]
lemma chainToList_some (e : α) (nxt : Option (Node α)) :
    chainToList (some (Node.mk e nxt)) = e :: chainToList nxt := by
  cases nxt <;> rfl

@[simp]
lemma Node.elem_mk (e : α) (nxt : Option (Node α)) : (Node.mk e nxt).elem = e := rfl

@[simp]
lemma Node.next_mk (e : α) (nxt : Option (Node α)) : (Node.mk e nxt).next = nxt := rfl

lemma chainToList_some_eq (nd : Node α) :
    chainToList (some nd) = nd.elem :: chainToList nd.next := by
  cases nd
  simp

@[simp]
lemma chainLength_none : chainLength (none : Option (Node α)) = 0 := rfl

lemma chainLength_some (nd : Node α) :
    chainLength (some nd) = chainLength nd.next + 1 := by
  cases nd
  simp [chainLength]

lemma chainLength_eq_zero {c : Option (Node α)} : chainLength c = 0 ↔ c = none := by
  cases c with
  | none => simp
  | some nd => simp [chainLength_some]

lemma chainLength_eq_length_chainToList (c : Option (Node α)) :
    chainLength c = (chainToList c).length := rfl

lemma ConsList.WF.length_eq_toList {l : ConsList α} (h : l.WF) :
    l.length = l.toList.length := h

@[simp]
lemma toList_new : (ConsList.new : ConsList α).toList = [] := rfl

@[simp]
lemma length_new : (ConsList.new : ConsList α).length = 0 := rfl

@[simp]
lemma toList_append (l : ConsList α) (x : α) : (l.append x).toList = x :: l.toList := by
  simp [ConsList.toList, ConsList.append]

@[simp]
lemma length_append (l : ConsList α) (x : α) : (l.append x).length = l.length + 1 := rfl

@[simp]
lemma toList_clone (l : ConsList α) : l.clone.toList = l.toList := rfl

@[simp]
lemma length_clone (l : ConsList α) : l.clone.length = l.length := rfl

lemma WF_new : (ConsList.new : ConsList α).WF := rfl

lemma WF_append {l : ConsList α} (h : l.WF) (x : α) : (l.append x).WF := by
  simp only [ConsList.WF, ConsList.append, ConsList.len, chainLength_some, Node.next_mk] at h ⊢
  omega

lemma WF_clone {l : ConsList α} (h : l.WF) : l.clone.WF := h

/-! ### The tailn walk -/

lemma walkN_spec (n : Nat) :
    ∀ c : Option (Node α), n < (chainToList c).length →
      ∃ nd : Node α, walkN c n = some (some nd) ∧
        chainToList (some nd) = (chainToList c).drop n := by
  induction n with
  | zero =>
    intro c hc
    cases c with
    | none => simp at hc
    | some nd => exact ⟨nd, rfl, by simp⟩
  | succ n ih =>
    intro c hc
    cases c with
    | none => simp at hc
    | some nd =>
      cases nd with
      | mk e nxt =>
        have h2 : n < (chainToList nxt).length := by
          simp only [chainToList_some, List.length_cons] at hc
          omega
        obtain ⟨nd2, hw, hlist⟩ := ih nxt h2
        refine ⟨nd2, ?_, ?_⟩
        · simpa [walkN] using hw
        · simpa using hlist

lemma tailn_spec {l : ConsList α} (h : l.WF) (n : Nat) :
    ∃ m : ConsList α, l.tailn n = some m ∧ m.WF ∧
      m.toList = l.toList.drop n ∧ m.length = l.length - n := by
  by_cases hle : l.len ≤ n
  · have hlen : l.toList.length ≤ n := by
      have := h.length_eq_toList
      simp only [ConsList.len] at hle
      omega
    refine ⟨ConsList.new, ?_, WF_new, ?_, ?_⟩
    · simp [ConsList.tailn, hle]
    · simp [List.drop_eq_nil_of_le hlen]
    · have := h.length_eq_toList
      simp only [ConsList.len] at hle
      simp
      omega
  · have hlt : n < (chainToList l.front).length := by
      have := h.length_eq_toList
      simp only [ConsList.len] at hle
      simp only [ConsList.toList] at this
      omega
    obtain ⟨nd, hw, hlist⟩ := walkN_spec n l.front hlt
    refine ⟨{ front := some nd, length := l.len - n }, ?_, ?_, ?_, ?_⟩
    · simp [ConsList.tailn, hle, hw]
    · show l.len - n = chainLength (some nd)
      rw [chainLength_eq_length_chainToList, hlist]
      have := h.length_eq_toList
      simp only [ConsList.toList] at this ⊢
      simp only [ConsList.len]
      rw [List.length_drop]
      omega
    · show chainToList (some nd) = l.toList.drop n
      exact hlist
    · rfl

/-! ### Construction from a sequence -/

lemma foldl_append_spec (xs : List α) :
    ∀ l : ConsList α,
      (xs.foldl (fun acc x => acc.append x) l).toList = xs.reverse ++ l.toList ∧
      (xs.foldl (fun acc x => acc.append x) l).length = l.length + xs.length := by
  induction xs with
  | nil => intro l; simp
  | cons x xs ih =>
    intro l
    obtain ⟨h1, h2⟩ := ih (l.append x)
    refine ⟨?_, ?_⟩
    · simp only [List.foldl_cons, h1, toList_append, List.reverse_cons, List.append_assoc,
        List.singleton_append]
    · simp only [List.foldl_cons, h2, length_append, List.length_cons]
      omega

lemma fromIter_toList (xs : List α) : (fromIter xs).toList = xs.reverse := by
  simpa using (foldl_append_spec xs ConsList.new).1

lemma fromIter_length (xs : List α) : (fromIter xs).length = xs.length := by
  simpa using (foldl_append_spec xs ConsList.new).2

lemma WF_fromIter (xs : List α) : (fromIter xs).WF := by
  show (fromIter xs).length = chainLength (fromIter xs).front
  rw [chainLength_eq_length_chainToList]
  have h1 : (fromIter xs).toList = xs.reverse := fromIter_toList xs
  simp only [ConsList.toList] at h1
  rw [h1, fromIter_length, List.length_reverse]

/-! ### Iterator lemmas -/

/-- Cursor invariant: the remaining count matches the chain under the cursor. -/
def IterWF (it : Iter α) : Prop :=
  it.nelem = chainLength it.head

lemma iterWF_of_WF {l : ConsList α} (h : l.WF) : IterWF l.iter := h

lemma stepK_spec (k : Nat) :
    ∀ it : Iter α, IterWF it → k ≤ it.nelem →
      (it.stepK k).nelem = it.nelem - k ∧ IterWF (it.stepK k) := by
  induction k with
  | zero => intro it h _; exact ⟨by simp [Iter.stepK], by simpa [Iter.stepK] using h⟩
  | succ k ih =>
    intro it h hk
    match hhd : it.head with
    | none =>
      exfalso
      have : it.nelem = 0 := by simpa [IterWF, hhd] using h
      omega
    | some nd =>
      have hchain : it.nelem = chainLength nd.next + 1 := by
        simpa [IterWF, hhd, chainLength_some] using h
      have hstep : it.nextStep.2 = { head := nd.next, nelem := it.nelem - 1 } := by
        simp [Iter.nextStep, hhd]
      have hwf2 : IterWF it.nextStep.2 := by
        rw [hstep]
        show it.nelem - 1 = chainLength nd.next
        omega
      have hk2 : k ≤ it.nextStep.2.nelem := by
        rw [hstep]
        show k ≤ it.nelem - 1
        omega
      obtain ⟨ha, hb⟩ := ih it.nextStep.2 hwf2 hk2
      refine ⟨?_, ?_⟩
      · show ((it.nextStep.2).stepK k).nelem = it.nelem - (k + 1)
        rw [ha, hstep]
        show it.nelem - 1 - k = it.nelem - (k + 1)
        omega
      · exact hb

/-! ### Equality helpers -/

lemma allZip_eq_iff [DecidableEq α] (xs : List α) :
    ∀ ys : List α, xs.length = ys.length →
      (((xs.zip ys).all fun p => decide (p.1 = p.2)) = true ↔ xs = ys) := by
  induction xs with
  | nil =>
    intro ys h
    cases ys with
    | nil => simp
    | cons y ys => simp at h
  | cons x xs ih =>
    intro ys h
    cases ys with
    | nil => simp at h
    | cons y ys =>
      have hlen : xs.length = ys.length := by simpa using h
      simp only [List.zip_cons_cons, List.all_cons, Bool.and_eq_true, decide_eq_true_eq,
        List.cons.injEq]
      rw [ih ys hlen]

/-! ### Partial-order helpers -/

lemma partialCmpAux_prefix (cmpf : α → α → Option Ordering) {p q : List α}
    (hpq : List.Forall₂ (fun u v => cmpf u v = some Ordering.eq) p q) :
    ∀ xs ys : List α,
      partialCmpAux cmpf (p ++ xs) (q ++ ys) = partialCmpAux cmpf xs ys := by
  induction hpq with
  | nil => intro xs ys; rfl
  | cons h _ ih =>
    intro xs ys
    simp only [List.cons_append, partialCmpAux, h]
    exact ih xs ys

lemma partialCmpAux_cons_none (cmpf : α → α → Option Ordering) {x y : α}
    (hxy : cmpf x y = none) (xs ys : List α) :
    partialCmpAux cmpf (x :: xs) (y :: ys) = none := by
  simp [partialCmpAux, hxy]

lemma partialCmpAux_compare {β : Type} [LinearOrder β] (xs : List β) :
    ∀ ys : List β,
      partialCmpAux (fun x y => some (compare x y)) xs ys = some (specLexCompare xs ys) := by
  induction xs with
  | nil => intro ys; cases ys <;> rfl
  | cons x xs ih =>
    intro ys
    cases ys with
    | nil => rfl
    | cons y ys =>
      simp only [partialCmpAux, specLexCompare]
      match h : compare x y with
      | Ordering.lt => simp [h]
      | Ordering.eq => simp [h, ih ys]
      | Ordering.gt => simp [h]

/-! ### Teardown helper -/

/-- The effect of the final failing `Rc::try_unwrap` on the first surviving
node: dropping the `Err` decrements its strong count. -/
def decFirst : List Nat → List Nat
  | [] => []
  | c :: rest => (c - 1) :: rest

/-! ### Claim theorems -/

/-- Claim C1: the specification requires the not-equal check `ne` to be the
logical negation of `eq`.  The source instead defines `ne` as length-mismatch
OR all-pairs-unequal.  On the two lists `[1, 2]` and `[1, 3]` (front to back)
with the standard integer equality and inequality, `eq` is `false` (the
second pair differs) yet `ne` is also `false` (the first pair does not
differ), so `ne` is not the negation of `eq` there. -/
theorem claimC1_ne_not_negation_of_eq :
    eqBy (fun x y : Nat => x == y)
      ((ConsList.new.append 2).append 1) ((ConsList.new.append 3).append 1) = false ∧
    neBy (fun x y : Nat => !(x == y))
      ((ConsList.new.append 2).append 1) ((ConsList.new.append 3).append 1) = false := by
  constructor <;> rfl

/-- Claim C2 counterexample: with the element comparison that deems every
pair incomparable (the behaviour of NaN under `partial_cmp`), the empty list
still compares strictly less than a one-element list, because the iterator
mismatch arm of the loop fires before any element pair is compared.  This
falsifies the claim that an incomparable element anywhere in either list
makes all four comparisons evaluate false. -/
theorem claimC2_counterexample :
    ltBy (fun _ _ : Unit => none) ConsList.new (ConsList.new.append ()) = true ∧
    partialCmpBy (fun _ _ : Unit => none) ConsList.new (ConsList.new.append ()) =
      some Ordering.lt := by
  constructor <;> rfl

/-- Claim C2 (amended): if, in the zipped front-to-back traversal, an
incomparable element pair occurs within both lists and every earlier pair
compares equal, then `partial_cmp` returns the incomparable result and the
four comparisons `<`, `>`, `<=`, `>=` all evaluate to false. -/
theorem claimC2_incomparable_amended (cmpf : α → α → Option Ordering)
    (a b : ConsList α) (p q xs ys : List α) (x y : α)
    (ha : a.toList = p ++ x :: xs) (hb : b.toList = q ++ y :: ys)
    (hpre : List.Forall₂ (fun u v => cmpf u v = some Ordering.eq) p q)
    (hxy : cmpf x y = none) :
    partialCmpBy cmpf a b = none ∧
    ltBy cmpf a b = false ∧ gtBy cmpf a b = false ∧
    leBy cmpf a b = false ∧ geBy cmpf a b = false := by
  have hnone : partialCmpBy cmpf a b = none := by
    rw [partialCmpBy, ha, hb, partialCmpAux_prefix cmpf hpre,
      partialCmpAux_cons_none cmpf hxy]
  exact ⟨hnone, by simp [ltBy, hnone], by simp [gtBy, hnone],
    by simp [leBy, hnone], by simp [geBy, hnone]⟩

/-- Witness for the amended claim C2: two one-element lists over an element
that is incomparable with every value. -/
theorem claimC2_incomparable_amended_witness :
    partialCmpBy (fun _ _ : Unit => none)
      (ConsList.new.append ()) (ConsList.new.append ()) = none ∧
    ltBy (fun _ _ : Unit => none) (ConsList.new.append ()) (ConsList.new.append ()) = false ∧
    gtBy (fun _ _ : Unit => none) (ConsList.new.append ()) (ConsList.new.append ()) = false ∧
    leBy (fun _ _ : Unit => none) (ConsList.new.append ()) (ConsList.new.append ()) = false ∧
    geBy (fun _ _ : Unit => none) (ConsList.new.append ()) (ConsList.new.append ()) = false :=
  claimC2_incomparable_amended (fun _ _ => none) (ConsList.new.append ())
    (ConsList.new.append ()) [] [] [] [] () () rfl rfl List.Forall₂.nil rfl

/-- Claim C3: for every well-formed list `l` and every `n`, `tailn n`
succeeds (never signals an error), its result holds the elements of `l` with
the first `n` removed, its length is `len l - n` truncated at zero, and for
`n ≥ len l` the result is the empty list. -/
theorem claimC3_tailn (l : ConsList α) (n : Nat) (h : l.WF) :
    ∃ m : ConsList α, l.tailn n = some m ∧
      m.toList = l.toList.drop n ∧
      m.length = l.length - n ∧
      (l.length ≤ n → m = ConsList.new) := by
  obtain ⟨m, h1, _, h3, h4⟩ := tailn_spec h n
  refine ⟨m, h1, h3, h4, fun hle => ?_⟩
  have hle2 : l.len ≤ n := hle
  have h2 : l.tailn n = some ConsList.new := by
    simp [ConsList.tailn, if_pos hle2]
  exact Option.some.inj (h1.symm.trans h2)

/-- Witness for claim C3 at the concrete list `[1, 2]` and `n = 1`. -/
theorem claimC3_tailn_witness :
    ∃ m : ConsList Nat, ((ConsList.new.append 2).append 1).tailn 1 = some m ∧
      m.toList = ((ConsList.new.append 2).append 1).toList.drop 1 ∧
      m.length = ((ConsList.new.append 2).append 1).length - 1 ∧
      (((ConsList.new.append 2).append 1).length ≤ 1 → m = ConsList.new) :=
  claimC3_tailn ((ConsList.new.append 2).append 1) 1 rfl

/-- Claim C4: for every well-formed list `l`, `lastn n` succeeds and returns
the last `n` elements of `l` (the elements with the first `len l - n`
removed); for `n ≥ len l` it is the clone of the full list, equal to the
original; for `n < len l` it agrees with `tailn (len l - n)`; `lastn 0` is
empty and `lastn (len l)` is equal to `l`. -/
theorem claimC4_lastn (l : ConsList α) (n : Nat) (h : l.WF) :
    ∃ m : ConsList α, l.lastn n = some m ∧
      m.toList = l.toList.drop (l.length - n) ∧
      (l.length ≤ n → m = l.clone ∧ m.toList = l.toList) ∧
      (n < l.length → l.lastn n = l.tailn (l.length - n)) ∧
      (n = 0 → m.toList = []) ∧
      (n = l.length → m.toList = l.toList) := by
  by_cases hge : n ≥ l.length
  · have hz : l.length - n = 0 := by omega
    refine ⟨l.clone, ?_, ?_, fun _ => ⟨rfl, rfl⟩, fun hlt => absurd hge (by omega), ?_, fun _ => rfl⟩
    · simp [ConsList.lastn, if_pos hge]
    · rw [hz, List.drop_zero, toList_clone]
    · intro h0
      have hlen0 : l.length = 0 := by omega
      have ht := h.length_eq_toList
      have : l.toList = [] := by
        rw [← List.length_eq_zero]
        omega
      rw [toList_clone, this]
  · have hlt : n < l.length := by omega
    obtain ⟨m, h1, _, h3, h4⟩ := tailn_spec h (l.length - n)
    have hlast : l.lastn n = l.tailn (l.length - n) := by
      simp [ConsList.lastn, if_neg (by omega : ¬ n ≥ l.length)]
    refine ⟨m, hlast ▸ h1, h3, fun hle => absurd hle (by omega), fun _ => hlast, ?_, ?_⟩
    · intro h0
      subst h0
      rw [h3, Nat.sub_zero, h.length_eq_toList, List.drop_length]
    · intro hn
      omega

/-- Witness for claim C4 at the concrete list `[1, 2]` and `n = 1`. -/
theorem claimC4_lastn_witness :
    ∃ m : ConsList Nat, ((ConsList.new.append 2).append 1).lastn 1 = some m ∧
      m.toList =
        ((ConsList.new.append 2).append 1).toList.drop
          (((ConsList.new.append 2).append 1).length - 1) ∧
      (((ConsList.new.append 2).append 1).length ≤ 1 →
        m = ((ConsList.new.append 2).append 1).clone ∧
        m.toList = ((ConsList.new.append 2).append 1).toList) ∧
      (1 < ((ConsList.new.append 2).append 1).length →
        ((ConsList.new.append 2).append 1).lastn 1 =
          ((ConsList.new.append 2).append 1).tailn
            (((ConsList.new.append 2).append 1).length - 1)) ∧
      ((1 : Nat) = 0 → m.toList = []) ∧
      ((1 : Nat) = ((ConsList.new.append 2).append 1).length → m.toList =
        ((ConsList.new.append 2).append 1).toList) :=
  claimC4_lastn ((ConsList.new.append 2).append 1) 1 rfl

/-- Claim C5: for every pair of well-formed lists over a type with decidable
equality, `eq` holds exactly when the lengths agree and the front-to-back
element sequences agree; in particular lists of different lengths are never
equal. -/
theorem claimC5_eq_iff [DecidableEq α] (a b : ConsList α) (ha : a.WF) (hb : b.WF) :
    eqBy (fun x y => decide (x = y)) a b = true ↔
      a.length = b.length ∧ a.toList = b.toList := by
  constructor
  · intro h
    rw [eqBy, Bool.and_eq_true] at h
    obtain ⟨h1, h2⟩ := h
    have hlen : a.length = b.length := by
      simpa [ConsList.len] using h1
    have hlist : a.toList.length = b.toList.length := by
      rw [← ha.length_eq_toList, ← hb.length_eq_toList]
      exact hlen
    exact ⟨hlen, (allZip_eq_iff a.toList b.toList hlist).mp h2⟩
  · rintro ⟨h1, h2⟩
    rw [eqBy, Bool.and_eq_true]
    refine ⟨by simpa [ConsList.len] using h1, ?_⟩
    have hlist : a.toList.length = b.toList.length := by rw [h2]
    exact (allZip_eq_iff a.toList b.toList hlist).mpr h2

/-- Witness for claim C5 at the concrete equal lists `[1, 2]` and `[1, 2]`. -/
theorem claimC5_eq_iff_witness :
    eqBy (fun x y : Nat => decide (x = y))
      ((ConsList.new.append 2).append 1) ((ConsList.new.append 2).append 1) = true :=
  (claimC5_eq_iff ((ConsList.new.append 2).append 1) ((ConsList.new.append 2).append 1)
    rfl rfl).mpr ⟨rfl, rfl⟩

/-- Claim C6: over a totally ordered element type, `partial_cmp` is exactly
the lexicographic front-to-back comparison described by the specification:
the first differing pair decides, an exhausted shorter list orders before
the longer, and equal lengths with all pairs equal give the equal result; in
particular the empty list orders below every non-empty list. -/
theorem claimC6_partial_cmp_lex {β : Type} [LinearOrder β] (a b : ConsList β) :
    partialCmpBy (fun x y => some (compare x y)) a b =
      some (specLexCompare a.toList b.toList) :=
  partialCmpAux_compare a.toList b.toList

/-- Claim C7: construction from a finite sequence front-inserts each element
in iteration order, so the resulting front-to-back order is the reverse of
the input order and the length equals the number of input elements. -/
theorem claimC7_from_iter_reverses (xs : List α) :
    (fromIter xs).toList = xs.reverse ∧ (fromIter xs).length = xs.length :=
  ⟨fromIter_toList xs, fromIter_length xs⟩

/-- Claim C8: for every well-formed list and every `k` up to its length, the
iterator state reached from `iter` by `k` calls to `next` reports the exact
size hint `(len - k, some (len - k))`: it starts at the length of the list,
decreases by one with each element yielded, and the two bounds coincide. -/
theorem claimC8_size_hint (l : ConsList α) (k : Nat) (h : l.WF) (hk : k ≤ l.length) :
    (l.iter.stepK k).sizeHint = (l.length - k, some (l.length - k)) := by
  have h0 : IterWF l.iter := iterWF_of_WF h
  have hk2 : k ≤ l.iter.nelem := hk
  obtain ⟨hn, _⟩ := stepK_spec k l.iter h0 hk2
  rw [Iter.sizeHint, hn]
  rfl

/-- Witness for claim C8 at the concrete list `[1, 2]` after one `next`. -/
theorem claimC8_size_hint_witness :
    (((ConsList.new.append 2).append 1).iter.stepK 1).sizeHint =
      (((ConsList.new.append 2).append 1).length - 1,
        some (((ConsList.new.append 2).append 1).length - 1)) :=
  claimC8_size_hint ((ConsList.new.append 2).append 1) 1 rfl (by decide)

/-- Claim C9: every list produced by the public operations satisfies the
representation invariant: the cached length field counts the nodes reachable
from `front`, and `front` is `none` exactly when the length is zero. -/
theorem claimC9_invariant (β : Type) :
    (ConsList.new : ConsList β).WF ∧
    (∀ (l : ConsList β) (x : β), l.WF → (l.append x).WF) ∧
    (∀ l : ConsList β, l.WF → ∀ m, l.tail = some m → m.WF) ∧
    (∀ (l : ConsList β) (n : Nat), l.WF → ∀ m, l.tailn n = some m → m.WF) ∧
    (∀ (l : ConsList β) (n : Nat), l.WF → ∀ m, l.lastn n = some m → m.WF) ∧
    (∀ l : ConsList β, l.WF → l.clone.WF) ∧
    (∀ xs : List β, (fromIter xs).WF) ∧
    (∀ l : ConsList β, l.WF → (l.front = none ↔ l.length = 0)) := by
  have htail : ∀ (l : ConsList β) (n : Nat), l.WF → ∀ m, l.tailn n = some m → m.WF := by
    intro l n h m hm
    obtain ⟨m2, h1, h2, _, _⟩ := tailn_spec h n
    rw [h1] at hm
    exact Option.some.inj hm ▸ h2
  refine ⟨WF_new, fun l x h => WF_append h x, ?_, htail, ?_, fun l h => WF_clone h,
    WF_fromIter, ?_⟩
  · intro l h m hm
    exact htail l 1 h m hm
  · intro l n h m hm
    rw [ConsList.lastn] at hm
    by_cases hge : n ≥ l.length
    · rw [if_pos hge] at hm
      exact Option.some.inj hm ▸ WF_clone h
    · rw [if_neg hge] at hm
      exact htail l (l.length - n) h m hm
  · intro l h
    constructor
    · intro hf
      rw [ConsList.WF, hf] at h
      simpa using h
    · intro hl
      rw [ConsList.WF, hl] at h
      exact chainLength_eq_zero.mp h.symm

/-- Witness for claim C9: the invariant holds for a concrete appended list. -/
theorem claimC9_invariant_witness : ((ConsList.new : ConsList Nat).append 3).WF :=
  (claimC9_invariant Nat).2.1 ConsList.new 3 (claimC9_invariant Nat).1

/-- Claim C10: the teardown walk over the strong counts of the chain frees
exactly the maximal uniquely-owned prefix (the nodes whose strong count is
one), stops at the first shared node, and when every node starts with a
positive count the whole surviving suffix keeps a positive count (the first
shared node merely loses the reference held by the dropped handle), so a
second handle sharing that suffix keeps it alive.  The number of loop steps
equals the number of freed nodes plus one, bounding the teardown work by the
uniquely-owned prefix. -/
theorem claimC10_drop (counts : List Nat) :
    (dropWalk counts).1 = (counts.takeWhile (fun c => c == 1)).length ∧
    (dropWalk counts).2 = decFirst (counts.dropWhile (fun c => c == 1)) ∧
    ((∀ c ∈ counts, 1 ≤ c) → ∀ c ∈ (dropWalk counts).2, 1 ≤ c) := by
  induction counts with
  | nil => exact ⟨rfl, rfl, fun _ c hc => absurd hc (by simp [dropWalk])⟩
  | cons c rest ih =>
    obtain ⟨h1, h2, h3⟩ := ih
    by_cases hc : c = 1
    · subst hc
      refine ⟨?_, ?_, ?_⟩
      · simp [dropWalk, h1]
      · simp [dropWalk, h2]
      · intro hall d hd
        refine h3 (fun e he => hall e (List.mem_cons_of_mem _ he)) d ?_
        simpa [dropWalk] using hd
    · have hbeq : (c == 1) = false := by
        simpa using hc
      refine ⟨?_, ?_, ?_⟩
      · simp [dropWalk, hc, hbeq]
      · simp [dropWalk, hc, hbeq, decFirst]
      · intro hall d hd
        have hc1 : 1 ≤ c := hall c (List.mem_cons_self c rest)
        simp only [dropWalk, if_neg hc] at hd
        rcases List.mem_cons.mp hd with hd | hd
        · omega
        · exact hall d (List.mem_cons_of_mem _ hd)

/-- Witness for claim C10 on a concrete chain of strong counts. -/
theorem claimC10_drop_witness :
    (dropWalk [1, 1, 3, 1]).1 = ([1, 1, 3, 1].takeWhile (fun c => c == 1)).length ∧
    (dropWalk [1, 1, 3, 1]).2 = decFirst ([1, 1, 3, 1].dropWhile (fun c => c == 1)) ∧
    (∀ c ∈ (dropWalk [1, 1, 3, 1]).2, 1 ≤ c) :=
  ⟨(claimC10_drop [1, 1, 3, 1]).1, (claimC10_drop [1, 1, 3, 1]).2.1,
    (claimC10_drop [1, 1, 3, 1]).2.2 (by decide)⟩

end ConsListModel
